import Mathlib

/-!
Verification of `corallium/pretty_process.py`.

The development shallowly embeds the module's pure logic and its
concurrency skeleton:

* `chunked` embeds `_chunked` (lines 37-46), including its Python error
  behaviour: `size // count` raises `ZeroDivisionError` when `count = 0`,
  `math.ceil(chunk_rem / size)` raises `ZeroDivisionError` when the data
  is empty, and `range(0, size, chunk_size)` is empty for a negative step
  (and would raise `ValueError` for a zero step).  Machine floats do not
  occur: `math.ceil(a / b)` on the integers that arise here is the exact
  rational ceiling, embedded as `cdiv`.
* `pretty_process_plan` embeds the set-up and dispatch portion of
  `pretty_process` (lines 62-84): resolution of the module-global
  `num_cpus` (bound only under `if __name__ == '__main__':`, hence a
  `NameError` when the module is imported), chunking, and the per-chunk
  dispatch loop recorded as an ordered event trace
  (`add_task`, `shared_progress[task_id] = 0`, `totals[task_id] = len(chunk)`,
  `executor.submit`).
* `runLoop` embeds the polling loop (lines 86-94) as a small-step
  interleaving of the aggregator with the workers: each poll iteration
  first reads a snapshot of `shared_progress` and renders it, and only
  then recomputes `remaining` from `job.done()`.
* `collectResults` embeds `[job.result() for job in jobs]` (line 96):
  `Future.result()` re-raises the job's exception, so the comprehension
  stops at the first failed job.
-/

deriving instance DecidableEq for Except

/-- Python exceptions that the embedded code can raise. -/
inductive PyErr where
  | nameError
  | zeroDivisionError
  | valueError
deriving DecidableEq, Repr

/-- Exact ceiling of the rational quotient `a / b` (for `b > 0`), written
with flooring division: `⌈a / b⌉ = -⌊(-a) / b⌋`.  This embeds Python's
`math.ceil(a / b)` at the call site in `_chunked`, where the quotient is
exact. -/
def cdiv (a b : Int) : Int := -(Int.fdiv (-a) b)

/-- Recursion core of `slices`, structurally recursive on a fuel bound so
that the kernel can evaluate it; each iteration of the slice loop consumes
at least one element when the step is positive, so a fuel of the list's
length is always sufficient (see `slicesAux_fuel`). -/
def slicesAux (fuel cs : Nat) (data : List α) : List (List α) :=
  match fuel, data with
  | _, [] => []
  | 0, _ :: _ => []
  | fuel + 1, x :: xs =>
    if cs = 0 then []
    else (x :: xs).take cs :: slicesAux fuel cs ((x :: xs).drop cs)

/-- The successive slices `data[ix:ix + cs]` for `ix in range(0, len(data), cs)`
with a positive step `cs`.  Python's slice `data[ix:ix + cs]` clamps at the end
of the list, which is exactly `(data.drop ix).take cs`. -/
def slices (cs : Nat) (data : List α) : List (List α) :=
  slicesAux data.length cs data

/-- Embedding of `_chunked` (pretty_process.py lines 37-46).

    size = len(data)
    chunk_size, chunk_rem = size // count, size % count
    chunk_size += int(math.ceil(chunk_rem / size))
    return [data[ix:ix + chunk_size] for ix in range(0, size, chunk_size)]

`size // count` and `size % count` are Python floor division and floor
modulus, i.e. `Int.fdiv` and `Int.fmod`; `size // 0` raises
`ZeroDivisionError`, and `chunk_rem / size` raises `ZeroDivisionError` for
empty data.  `range(0, size, step)` is empty for `step < 0` (since
`size > 0` there), and raises `ValueError` for `step = 0`. -/
def chunked (data : List α) (count : Int) : Except PyErr (List (List α)) :=
  let size : Int := data.length
  if count = 0 then .error .zeroDivisionError
  else if size = 0 then .error .zeroDivisionError
  else
    let chunkSize := Int.fdiv size count + cdiv (Int.fmod size count) size
    if 0 < chunkSize then .ok (slices chunkSize.toNat data)
    else if chunkSize = 0 then .error .valueError
    else .ok []

/-- One primitive effect of the dispatch loop of `pretty_process`
(lines 77-84), in program order: `progress.add_task`,
`shared_progress[task_id] = 0`, `totals[task_id] = len(chunk)`, and
`executor.submit(...)`. -/
inductive DEvent where
  | addTask (id : Nat)
  | initProgress (id : Nat)
  | setTotal (id : Nat) (n : Nat)
  | submit (id : Nat)
deriving DecidableEq, Repr

/-- The events of the dispatch `for` loop, one block of four per chunk.
`rich` hands out task ids by a running counter; `task_id_all` has already
consumed id `0`, so the chunk at position `ix` receives id `ix + 1`. -/
def dispatchEvents : Nat → List (List α) → List DEvent
  | _, [] => []
  | ix, chunk :: rest =>
      DEvent.addTask (ix + 1) :: DEvent.initProgress (ix + 1) ::
        DEvent.setTotal (ix + 1) chunk.length :: DEvent.submit (ix + 1) ::
          dispatchEvents (ix + 1) rest

/-- Outcome of the set-up and dispatch portion of `pretty_process`:
the pool bound handed to `ProcessPoolExecutor`, the chunk list, and the
ordered event trace of the dispatch loop. -/
structure RunPlan (α : Type _) where
  poolSize : Int
  chunks : List (List α)
  events : List DEvent
deriving DecidableEq, Repr

/-- Embedding of the set-up and dispatch portion of `pretty_process`
(lines 62-84).  The loop header evaluates
`_chunked(data, count=num_cpus)` where `num_cpus` is a module-global
name that is bound only inside the `if __name__ == '__main__':` block;
`numCpus` is `none` when the module was imported, in which case looking
the name up raises `NameError` before any task is added or any job is
submitted.  `num_workers` is used only as `max_workers` for the pool
(recorded in `poolSize`); validation of the bound by the standard
library's executor is outside the module and not modelled. -/
def pretty_process_plan (numCpus : Option Int) (data : List α) (numWorkers : Int) :
    Except PyErr (RunPlan α) :=
  match numCpus with
  | none => .error .nameError
  | some c =>
    match chunked data c with
    | .error e => .error e
    | .ok cs => .ok { poolSize := numWorkers, chunks := cs, events := dispatchEvents 0 cs }

/-- Task ids submitted to the executor by an event trace, in order. -/
def submitIds : List DEvent → List Nat
  | [] => []
  | DEvent.submit id :: rest => id :: submitIds rest
  | _ :: rest => submitIds rest

/-- Task ids submitted to the executor by a (possibly failed) run plan: a
plan that raised before the loop submitted nothing. -/
def submittedIds : Except PyErr (RunPlan α) → List Nat
  | .error _ => []
  | .ok p => submitIds p.events

/-- Task ids whose `shared_progress` entry has been initialised by the
trace, in order. -/
def progressIds : List DEvent → List Nat
  | [] => []
  | DEvent.initProgress id :: rest => id :: progressIds rest
  | _ :: rest => progressIds rest

/-- Task ids that have an entry in the `totals` bookkeeping of the trace,
in order. -/
def totalsIds : List DEvent → List Nat
  | [] => []
  | DEvent.setTotal id _ :: rest => id :: totalsIds rest
  | _ :: rest => totalsIds rest

/-- Scan an event trace in program order, checking at each `submit` that
the submitted id already has its `shared_progress` entry initialised and
its total recorded.  `pr` and `tr` hold the ids registered so far. -/
def checkReg (pr tr : List Nat) : List DEvent → Bool
  | [] => true
  | DEvent.addTask _ :: rest => checkReg pr tr rest
  | DEvent.initProgress id :: rest => checkReg (id :: pr) tr rest
  | DEvent.setTotal id _ :: rest => checkReg pr (id :: tr) rest
  | DEvent.submit id :: rest => pr.contains id && tr.contains id && checkReg pr tr rest

/-- Embedding of `[job.result() for job in jobs]` (line 96).
`Future.result()` re-raises the stored exception of a failed job, which
aborts the comprehension: the value of the whole expression is the first
failure, and the results of the remaining jobs are never retrieved. -/
def collectResults : List (Except ε ρ) → Except ε (List ρ)
  | [] => .ok []
  | job :: rest =>
    match job with
    | .error e => .error e
    | .ok r =>
      match collectResults rest with
      | .error e => .error e
      | .ok rs => .ok (r :: rs)

/-- Position of the aggregator in the polling loop of `pretty_process`
(lines 86-94).  An iteration of the `while remaining:` body first reads a
snapshot of `shared_progress` and renders it (`render`), and only
afterwards recomputes `remaining` from `job.done()` (`check`); the loop
stops when that check finds every job done (`exited`). -/
inductive AggPC where
  | render
  | check
  | exited
deriving DecidableEq, Repr

/-- Point a function update, modelling a single write to a managed dict. -/
def updFn (f : Nat → β) (i : Nat) (v : β) : Nat → β :=
  fun j => if j = i then v else f j

/-- Shared state of the polling phase: worker-side progress counters and
done flags, and the aggregator-side rendered display.  `progress i` is
`shared_progress` at the key of chunk `i`, `done i` is `jobs[i].done()`,
`display i` is the completed count last rendered for chunk `i`'s bar, and
`displayAll` the completed count last rendered for the aggregate bar. -/
structure LoopState where
  progress : Nat → Nat
  done : Nat → Bool
  display : Nat → Nat
  displayAll : Nat
  pc : AggPC

/-- One step of the worker owning chunk `i` (the demo-style delegated
task): while items remain in its chunk it processes the next item and
performs `shared_progress[task_id] += 1`; after its last item it returns,
which resolves its future, so `jobs[i].done()` becomes true. -/
def workerStep (totals : List Nat) (s : LoopState) (i : Nat) : LoopState :=
  if i < totals.length then
    if s.progress i < totals.getD i 0 then
      { s with progress := updFn s.progress i (s.progress i + 1) }
    else if s.done i = false then
      { s with done := updFn s.done i true }
    else s
  else s

/-- Whether `remaining = len(jobs) - sum(job.done() for job in jobs)` is
zero, for `k` jobs. -/
def allDone (k : Nat) (s : LoopState) : Bool :=
  (List.range k).all fun i => s.done i

/-- One step of the aggregator.  In `render` it reads one snapshot of
`shared_progress` (a single `items()` call on the managed dict), updates
every chunk's bar and the aggregate bar from that snapshot, and moves to
the `remaining` recomputation; in `check` it exits the loop if the check
found every job done, otherwise it begins the next iteration. -/
def aggStep (k : Nat) (s : LoopState) : LoopState :=
  match s.pc with
  | .render =>
      { s with
        display := s.progress
        displayAll := ((List.range k).map s.progress).sum
        pc := .check }
  | .check => if allDone k s then { s with pc := .exited } else { s with pc := .render }
  | .exited => s

/-- An interleaving step is taken either by one worker or by the aggregator. -/
inductive Agent where
  | worker (i : Nat)
  | aggregator
deriving DecidableEq, Repr

/-- One interleaving step of the polling phase with chunk totals `totals`. -/
def loopStep (totals : List Nat) (s : LoopState) : Agent → LoopState
  | .worker i => workerStep totals s i
  | .aggregator => aggStep totals.length s

/-- State when the polling loop is entered: every chunk's
`shared_progress` entry was pre-registered at 0, no future is resolved,
every bar was created at 0, and `remaining` was initialised to
`len(jobs)`, so the loop body is entered iff there is at least one job. -/
def initLoop (totals : List Nat) : LoopState :=
  { progress := fun _ => 0
    done := fun _ => false
    display := fun _ => 0
    displayAll := 0
    pc := if totals.length = 0 then .exited else .render }

/-- The polling phase after the steps of a given schedule. -/
def runLoop (totals : List Nat) (sched : List Agent) : LoopState :=
  sched.foldl (loopStep totals) (initLoop totals)

/-- Invariant of the polling phase: the aggregator leaves the loop only
after a `remaining` recomputation that observed every job done, and both
the true counters and the rendered counters never exceed the chunk
totals. -/
def loopInv (totals : List Nat) (s : LoopState) : Prop :=
  (s.pc = AggPC.exited → allDone totals.length s = true) ∧
  (∀ i, s.progress i ≤ totals.getD i 0) ∧
  (∀ i, s.display i ≤ totals.getD i 0)

/-- Ceiling division on naturals.  For a nonempty list and a positive
count, `_chunked` assigns exactly this value to `chunk_size`: the
increment `int(math.ceil(chunk_rem / size))` is `1` precisely when
`size % count` is nonzero, because `0 < size % count ≤ size` there. -/
def natCeil (n w : Nat) : Nat := n / w + if n % w = 0 then 0 else 1

theorem natCeil_pos {n w : Nat} (hn : 1 ≤ n) (_hw : 1 ≤ w) : 1 ≤ natCeil n w := by
  unfold natCeil
  have hd := Nat.div_add_mod n w
  by_cases h : n % w = 0
  · rw [if_pos h]
    rcases Nat.eq_zero_or_pos (n / w) with h0 | h1
    · rw [h0, Nat.mul_zero, h] at hd; omega
    · omega
  · rw [if_neg h]; exact Nat.le_add_left 1 _

theorem cdiv_zero_left (b : Int) : cdiv 0 b = 0 := by
  simp [cdiv]

theorem cdiv_eq_one {r n : Nat} (hr : 1 ≤ r) (hrn : r ≤ n) :
    cdiv (r : Int) (n : Int) = 1 := by
  obtain ⟨k, rfl⟩ : ∃ k, r = k + 1 := ⟨r - 1, by omega⟩
  obtain ⟨m, rfl⟩ : ∃ m, n = m + 1 := ⟨n - 1, by omega⟩
  have h1 : (-(((k + 1 : Nat) : Int))) = Int.negSucc k := by
    rw [Int.negSucc_eq]; push_cast; ring
  have h2 : Int.fdiv (Int.negSucc k) (((m + 1 : Nat) : Int)) = Int.negSucc (k / (m + 1)) := rfl
  have h3 : k / (m + 1) = 0 := Nat.div_eq_of_lt (by omega)
  rw [cdiv, h1, h2, h3]
  decide

/-- For a nonempty list and positive count, the `chunk_size` computed by
`_chunked` is the ceiling of `size / count`. -/
theorem chunkSize_eq (N W : Nat) :
    Int.fdiv (N : Int) (W : Int) + cdiv (Int.fmod (N : Int) (W : Int)) (N : Int)
      = (natCeil N W : Int) := by
  rw [← Int.ofNat_fdiv, ← Int.ofNat_fmod]
  by_cases h : N % W = 0
  · rw [h]
    unfold natCeil
    rw [if_pos h]
    simp [cdiv_zero_left]
  · have h1 : 1 ≤ N % W := Nat.pos_of_ne_zero h
    have h2 : N % W ≤ N := Nat.mod_le N W
    rw [cdiv_eq_one h1 h2]
    unfold natCeil
    rw [if_neg h]
    push_cast
    ring

/-- On a nonempty list with a positive count, `_chunked` succeeds and
returns the slices of size `⌈size / count⌉`. -/
theorem chunked_eq_slices (data : List α) (W : Nat) (hd : data ≠ []) (hW : 1 ≤ W) :
    chunked data (W : Int) = .ok (slices (natCeil data.length W) data) := by
  have hN : 1 ≤ data.length := List.length_pos.mpr hd
  have h1 : ¬((W : Int) = 0) := by
    simp only [Int.natCast_eq_zero]
    omega
  have h2 : ¬((data.length : Int) = 0) := by
    simp only [Int.natCast_eq_zero]
    omega
  simp only [chunked, h1, h2, if_neg, if_false, ite_false,
    chunkSize_eq data.length W]
  have h3 : (0 : Int) < (natCeil data.length W : Int) := by
    exact_mod_cast natCeil_pos hN hW
  rw [if_pos h3, Int.toNat_natCast]

theorem slicesAux_nil (fuel cs : Nat) : slicesAux fuel cs ([] : List α) = [] := by
  cases fuel <;> rfl

/-- The fuel does not matter as long as it covers the list's length. -/
theorem slicesAux_fuel (cs : Nat) (hcs : 1 ≤ cs) :
    ∀ (f g : Nat) (data : List α), data.length ≤ f → data.length ≤ g →
      slicesAux f cs data = slicesAux g cs data := by
  intro f
  induction f with
  | zero =>
    intro g data hf hg
    have hnil : data = [] := List.length_eq_zero.mp (by omega)
    subst hnil
    rw [slicesAux_nil, slicesAux_nil]
  | succ f ih =>
    intro g data hf hg
    match data with
    | [] => rw [slicesAux_nil, slicesAux_nil]
    | x :: xs =>
      match g with
      | 0 => simp at hg
      | g + 1 =>
        simp only [slicesAux, if_neg (by omega : ¬cs = 0)]
        simp only [List.length_cons] at hf hg
        refine congrArg _ (ih g ((x :: xs).drop cs) ?_ ?_) <;>
          simp only [List.length_drop, List.length_cons] <;> omega

theorem slices_nil (cs : Nat) : slices cs ([] : List α) = [] := rfl

theorem slices_cons (cs : Nat) (hcs : 1 ≤ cs) (x : α) (xs : List α) :
    slices cs (x :: xs) = (x :: xs).take cs :: slices cs ((x :: xs).drop cs) := by
  show slicesAux (xs.length + 1) cs (x :: xs) = _
  simp only [slicesAux, if_neg (by omega : ¬cs = 0)]
  refine congrArg _ ?_
  rw [slices]
  refine slicesAux_fuel cs hcs xs.length ((x :: xs).drop cs).length ((x :: xs).drop cs) ?_ le_rfl
  simp only [List.length_drop, List.length_cons]
  omega

theorem slices_ne_nil (cs : Nat) (hcs : 1 ≤ cs) (x : α) (xs : List α) :
    slices cs (x :: xs) ≠ [] := by
  rw [slices_cons cs hcs]
  simp

theorem slices_flatten_aux (cs : Nat) (hcs : 1 ≤ cs) :
    ∀ (n : Nat) (data : List α), data.length ≤ n → (slices cs data).flatten = data := by
  intro n
  induction n with
  | zero =>
    intro data h
    have hnil : data = [] := List.length_eq_zero.mp (by omega)
    subst hnil
    rw [slices_nil, List.flatten_nil]
  | succ n ih =>
    intro data h
    match data with
    | [] => rw [slices_nil, List.flatten_nil]
    | x :: xs =>
      rw [slices_cons cs hcs, List.flatten_cons,
        ih ((x :: xs).drop cs) (by simp only [List.length_drop, List.length_cons] at h ⊢; omega)]
      exact List.take_append_drop cs (x :: xs)

/-- Concatenating the slices in order reproduces the sliced list. -/
theorem slices_flatten (cs : Nat) (hcs : 1 ≤ cs) (data : List α) :
    (slices cs data).flatten = data :=
  slices_flatten_aux cs hcs data.length data le_rfl

theorem natCeil_zero_left (cs : Nat) : natCeil 0 cs = 0 := by
  unfold natCeil
  rw [Nat.zero_div, Nat.zero_mod, if_pos rfl]

theorem natCeil_step (cs : Nat) (hcs : 1 ≤ cs) (N : Nat) (hN : 1 ≤ N) :
    natCeil N cs = natCeil (N - cs) cs + 1 := by
  rcases le_or_lt N cs with hle | hgt
  · have hsub : N - cs = 0 := by omega
    rw [hsub, natCeil_zero_left]
    rcases eq_or_lt_of_le hle with heq | hlt
    · subst heq
      unfold natCeil
      rw [Nat.mod_self, if_pos rfl, Nat.div_self (by omega)]
    · unfold natCeil
      rw [Nat.div_eq_of_lt hlt, Nat.mod_eq_of_lt hlt, if_neg (by omega)]
  · obtain ⟨M, rfl⟩ : ∃ M, N = M + cs := ⟨N - cs, by omega⟩
    rw [Nat.add_sub_cancel]
    unfold natCeil
    rw [Nat.add_div_right _ (by omega), Nat.add_mod_right]
    by_cases hm : M % cs = 0
    · rw [if_pos hm]
    · rw [if_neg hm]

theorem slices_length_aux (cs : Nat) (hcs : 1 ≤ cs) :
    ∀ (n : Nat) (data : List α), data.length ≤ n →
      (slices cs data).length = natCeil data.length cs := by
  intro n
  induction n with
  | zero =>
    intro data h
    have hnil : data = [] := List.length_eq_zero.mp (by omega)
    subst hnil
    rw [slices_nil]
    simp [natCeil_zero_left]
  | succ n ih =>
    intro data h
    match data with
    | [] => rw [slices_nil]; simp [natCeil_zero_left]
    | x :: xs =>
      rw [slices_cons cs hcs, List.length_cons,
        ih ((x :: xs).drop cs) (by simp only [List.length_drop, List.length_cons] at h ⊢; omega),
        List.length_drop, List.length_cons]
      exact (natCeil_step cs hcs (xs.length + 1) (by omega)).symm

/-- The number of slices is the ceiling of the length over the step. -/
theorem slices_length (cs : Nat) (hcs : 1 ≤ cs) (data : List α) :
    (slices cs data).length = natCeil data.length cs :=
  slices_length_aux cs hcs data.length data le_rfl

theorem slices_sizes_aux (cs : Nat) (hcs : 1 ≤ cs) :
    ∀ (n : Nat) (data : List α), data.length ≤ n →
      ∀ c ∈ slices cs data, 1 ≤ c.length ∧ c.length ≤ cs := by
  intro n
  induction n with
  | zero =>
    intro data h c hc
    have hnil : data = [] := List.length_eq_zero.mp (by omega)
    subst hnil
    rw [slices_nil] at hc
    simp at hc
  | succ n ih =>
    intro data h c hc
    match data with
    | [] => rw [slices_nil] at hc; simp at hc
    | x :: xs =>
      rw [slices_cons cs hcs] at hc
      rcases List.mem_cons.mp hc with rfl | hmem
      · rw [List.length_take, List.length_cons]
        omega
      · exact ih ((x :: xs).drop cs)
          (by simp only [List.length_drop, List.length_cons] at h ⊢; omega) c hmem

/-- Every slice is nonempty and no longer than the step. -/
theorem slices_sizes (cs : Nat) (hcs : 1 ≤ cs) (data : List α) :
    ∀ c ∈ slices cs data, 1 ≤ c.length ∧ c.length ≤ cs :=
  slices_sizes_aux cs hcs data.length data le_rfl

theorem slices_dropLast_aux (cs : Nat) (hcs : 1 ≤ cs) :
    ∀ (n : Nat) (data : List α), data.length ≤ n →
      ∀ c ∈ (slices cs data).dropLast, c.length = cs := by
  intro n
  induction n with
  | zero =>
    intro data h c hc
    have hnil : data = [] := List.length_eq_zero.mp (by omega)
    subst hnil
    rw [slices_nil] at hc
    simp at hc
  | succ n ih =>
    intro data h c hc
    match data with
    | [] => rw [slices_nil] at hc; simp at hc
    | x :: xs =>
      rw [slices_cons cs hcs] at hc
      cases hdrop : (x :: xs).drop cs with
      | nil =>
        rw [hdrop, slices_nil] at hc
        simp at hc
      | cons y ys =>
        rw [hdrop, List.dropLast_cons_of_ne_nil (slices_ne_nil cs hcs y ys)] at hc
        have hlen : cs < xs.length + 1 := by
          have hd := congrArg List.length hdrop
          simp only [List.length_drop, List.length_cons] at hd
          omega
        rcases List.mem_cons.mp hc with rfl | hmem
        · rw [List.length_take, List.length_cons]
          omega
        · have hrec := ih ((x :: xs).drop cs)
            (by simp only [List.length_drop, List.length_cons] at h ⊢; omega)
          rw [hdrop] at hrec
          exact hrec c hmem

/-- Every slice except possibly the last has length exactly the step. -/
theorem slices_dropLast (cs : Nat) (hcs : 1 ≤ cs) (data : List α) :
    ∀ c ∈ (slices cs data).dropLast, c.length = cs :=
  slices_dropLast_aux cs hcs data.length data le_rfl

theorem le_mul_natCeil (N W : Nat) (hW : 1 ≤ W) : N ≤ W * natCeil N W := by
  have hd := Nat.div_add_mod N W
  unfold natCeil
  by_cases h : N % W = 0
  · rw [if_pos h, Nat.add_zero]
    omega
  · rw [if_neg h, Nat.mul_add, Nat.mul_one]
    have hm : N % W < W := Nat.mod_lt _ (by omega)
    omega

theorem natCeil_le_of_le_mul (N c W : Nat) (hc : 1 ≤ c) (hle : N ≤ W * c) :
    natCeil N c ≤ W := by
  have h1 : N / c ≤ W := by
    have hdd : N / c ≤ W * c / c := Nat.div_le_div_right hle
    rwa [Nat.mul_div_cancel _ (by omega)] at hdd
  unfold natCeil
  by_cases h : N % c = 0
  · rw [if_pos h, Nat.add_zero]
    exact h1
  · rw [if_neg h]
    have hne : N ≠ W * c := by
      intro he
      rw [he, Nat.mul_mod_left] at h
      exact h rfl
    have hlt : N / c < W := (Nat.div_lt_iff_lt_mul (by omega)).mpr (by omega)
    omega

theorem natCeil_eq_one (N W : Nat) (hN : 1 ≤ N) (hNW : N < W) : natCeil N W = 1 := by
  unfold natCeil
  rw [Nat.div_eq_of_lt hNW, Nat.mod_eq_of_lt hNW, if_neg (by omega)]

theorem natCeil_one_right (N : Nat) : natCeil N 1 = N := by
  unfold natCeil
  rw [Nat.div_one, Nat.mod_one, if_pos rfl, Nat.add_zero]

/-- On a nonempty list, `_chunked` with a negative count returns no chunks
at all and raises nothing: `chunk_size` comes out negative, so
`range(0, size, chunk_size)` is empty. -/
theorem chunked_negSucc (x : α) (xs : List α) (n : Nat) :
    chunked (x :: xs) (Int.negSucc n) = .ok [] := by
  have hcount : (Int.negSucc n) ≠ 0 := fun h => Int.noConfusion h
  have hsize : ¬(((x :: xs).length : Int) = 0) := by
    simp only [List.length_cons, Int.natCast_eq_zero]
    omega
  have h2 : Int.fdiv ((x :: xs).length : Int) (Int.negSucc n)
      = Int.negSucc (xs.length / (n + 1)) := rfl
  have h3 : Int.fmod ((x :: xs).length : Int) (Int.negSucc n)
      = Int.subNatNat (xs.length % (n + 1)) n := rfl
  have h4 : cdiv (Int.subNatNat (xs.length % (n + 1)) n) ((x :: xs).length : Int) ≤ 0 := by
    unfold cdiv
    have hr : xs.length % (n + 1) ≤ n := by
      have := Nat.mod_lt xs.length (y := n + 1) (by omega)
      omega
    have hsub : (0 : Int) ≤ -(Int.subNatNat (xs.length % (n + 1)) n) := by
      rw [Int.subNatNat_eq_coe]
      omega
    have hnn := Int.fdiv_nonneg hsub (Int.natCast_nonneg (x :: xs).length)
    omega
  have hCS : Int.fdiv ((x :: xs).length : Int) (Int.negSucc n)
      + cdiv (Int.fmod ((x :: xs).length : Int) (Int.negSucc n)) ((x :: xs).length : Int) < 0 := by
    rw [h2, h3, Int.negSucc_eq]
    have hq := Int.natCast_nonneg (xs.length / (n + 1))
    omega
  simp only [chunked]
  rw [if_neg hcount, if_neg hsize, if_neg (by omega), if_neg (by omega)]

theorem checkReg_dispatchEvents (cs : List (List α)) :
    ∀ (ix : Nat) (pr tr : List Nat), checkReg pr tr (dispatchEvents ix cs) = true := by
  induction cs with
  | nil => intro ix pr tr; rfl
  | cons c rest ih =>
    intro ix pr tr
    simp only [dispatchEvents, checkReg, List.contains_cons, beq_self_eq_true,
      Bool.true_or, Bool.true_and]
    exact ih (ix + 1) ((ix + 1) :: pr) ((ix + 1) :: tr)

theorem progressIds_eq_totalsIds (cs : List (List α)) :
    ∀ ix : Nat, progressIds (dispatchEvents ix cs) = totalsIds (dispatchEvents ix cs) := by
  induction cs with
  | nil => intro ix; rfl
  | cons c rest ih =>
    intro ix
    simp only [dispatchEvents, progressIds, totalsIds]
    rw [ih (ix + 1)]

theorem collectResults_first_failure (pre : List ρ) (e : ε) (rest : List (Except ε ρ)) :
    collectResults (pre.map Except.ok ++ Except.error e :: rest) = Except.error e := by
  induction pre with
  | nil => rfl
  | cons r rs ih =>
    simp only [List.map_cons, List.cons_append, collectResults, List.append_eq, ih]

theorem loopInv_step (totals : List Nat) (s : LoopState) (a : Agent)
    (h : loopInv totals s) : loopInv totals (loopStep totals s a) := by
  obtain ⟨h1, h2, h3⟩ := h
  cases a with
  | worker i =>
    simp only [loopStep, workerStep]
    by_cases hi : i < totals.length
    · rw [if_pos hi]
      by_cases hlt : s.progress i < totals.getD i 0
      · rw [if_pos hlt]
        refine ⟨fun hpc => h1 hpc, ?_, h3⟩
        intro j
        simp only [updFn]
        by_cases hj : j = i
        · subst hj
          rw [if_pos rfl]
          omega
        · rw [if_neg hj]
          exact h2 j
      · rw [if_neg hlt]
        by_cases hdone : s.done i = false
        · rw [if_pos hdone]
          refine ⟨?_, h2, h3⟩
          intro hpc
          have hall := h1 hpc
          simp only [allDone, List.all_eq_true] at hall ⊢
          intro j hj
          simp only [updFn]
          by_cases hji : j = i
          · rw [if_pos hji]
          · rw [if_neg hji]
            exact hall j hj
        · rw [if_neg hdone]
          exact ⟨h1, h2, h3⟩
    · rw [if_neg hi]
      exact ⟨h1, h2, h3⟩
  | aggregator =>
    simp only [loopStep, aggStep]
    cases hpc : s.pc with
    | render =>
      exact ⟨fun hx => AggPC.noConfusion hx, h2, h2⟩
    | check =>
      by_cases hall : allDone totals.length s = true
      · rw [if_pos hall]
        exact ⟨fun _ => hall, h2, h3⟩
      · rw [if_neg hall]
        exact ⟨fun hx => AggPC.noConfusion hx, h2, h3⟩
    | exited =>
      exact ⟨h1, h2, h3⟩

theorem loopInv_foldl (totals : List Nat) :
    ∀ (sched : List Agent) (s : LoopState), loopInv totals s →
      loopInv totals (sched.foldl (loopStep totals) s) := by
  intro sched
  induction sched with
  | nil => intro s h; exact h
  | cons a rest ih =>
    intro s h
    exact ih _ (loopInv_step totals s a h)

theorem loopInv_init (totals : List Nat) : loopInv totals (initLoop totals) := by
  refine ⟨?_, fun i => Nat.zero_le _, fun i => Nat.zero_le _⟩
  intro h
  simp only [initLoop] at h
  by_cases h0 : totals.length = 0
  · simp [allDone, h0]
  · rw [if_neg h0] at h
    exact AggPC.noConfusion h

/-- The polling-phase invariant holds after any schedule. -/
theorem loopInv_run (totals : List Nat) (sched : List Agent) :
    loopInv totals (runLoop totals sched) :=
  loopInv_foldl totals sched (initLoop totals) (loopInv_init totals)

/-- C1: Every call to `pretty_process` through the public interface (the
module imported as a library, so the global `num_cpus` is unbound) raises
`NameError` before any job is submitted, and the `num_workers` parameter
never influences how the data is chunked. -/
theorem claim_C1 (data : List α) (w w1 w2 c : Int) :
    pretty_process_plan none data w = Except.error PyErr.nameError ∧
    submittedIds (pretty_process_plan none data w) = [] ∧
    (pretty_process_plan (some c) data w1).map RunPlan.chunks
      = (pretty_process_plan (some c) data w2).map RunPlan.chunks := by
  refine ⟨rfl, rfl, ?_⟩
  cases hc : chunked data c with
  | error e => simp [pretty_process_plan, hc, Except.map]
  | ok cs => simp [pretty_process_plan, hc, Except.map]

/-- C2 counterexample: for N = 10 and W = 4 the code produces chunks of
sizes 3, 3, 3, 1 — the total is 10 but the largest and smallest sizes
differ by 2, so the sizes do not differ by at most 1 as claimed. -/
theorem claim_C2_counterexample :
    (chunked (List.range 10) 4).map (fun cs => cs.map List.length) = Except.ok [3, 3, 3, 1] ∧
    ¬(∀ a ∈ [3, 3, 3, 1], ∀ b ∈ [3, 3, 3, 1], a ≤ b + 1) := by
  constructor
  · decide
  · decide

/-- C2 (amended): for N ≥ 1 and W ≥ 1 the chunks' total length equals N
and every chunk is nonempty with size at most `⌈N / W⌉`, every chunk
except possibly the last having size exactly `⌈N / W⌉`; sizes can differ
by more than 1 (see the counterexample), and N = 0 raises
`ZeroDivisionError` instead of chunking. -/
theorem claim_C2 (data : List α) (W : Nat) (hd : data ≠ []) (hW : 1 ≤ W) :
    ∃ cs, chunked data (W : Int) = Except.ok cs ∧
      (cs.map List.length).sum = data.length ∧
      (∀ c ∈ cs, 1 ≤ c.length ∧ c.length ≤ natCeil data.length W) ∧
      (∀ c ∈ cs.dropLast, c.length = natCeil data.length W) := by
  have hc := natCeil_pos (List.length_pos.mpr hd) hW
  refine ⟨slices (natCeil data.length W) data, chunked_eq_slices data W hd hW, ?_,
    slices_sizes _ hc data, slices_dropLast _ hc data⟩
  rw [← List.length_flatten, slices_flatten _ hc]

theorem claim_C2_witness :
    ∃ cs, chunked [0, 1, 2, 3, 4] ((2 : Nat) : Int) = Except.ok cs ∧
      (cs.map List.length).sum = [0, 1, 2, 3, 4].length ∧
      (∀ c ∈ cs, 1 ≤ c.length ∧ c.length ≤ natCeil [0, 1, 2, 3, 4].length 2) ∧
      (∀ c ∈ cs.dropLast, c.length = natCeil [0, 1, 2, 3, 4].length 2) :=
  claim_C2 [0, 1, 2, 3, 4] 2 (by decide) (by decide)

/-- C3 counterexample: for the empty input list the claim fails — the
code raises `ZeroDivisionError` (`chunk_rem / size` divides by
`size = 0`), so no chunk list is returned at all. -/
theorem claim_C3_counterexample :
    chunked ([] : List Nat) 1 = Except.error PyErr.zeroDivisionError ∧
    ¬∃ cs, chunked ([] : List Nat) 1 = Except.ok cs := by
  refine ⟨by decide, ?_⟩
  rintro ⟨cs, hcs⟩
  rw [show chunked ([] : List Nat) 1 = Except.error PyErr.zeroDivisionError from by decide] at hcs
  exact Except.noConfusion hcs

/-- C3 (amended): for every nonempty input list and every count W ≥ 1,
concatenating the chunks returned by `_chunked` in order reproduces the
input exactly; the empty list instead raises `ZeroDivisionError`. -/
theorem claim_C3 (data : List α) (W : Nat) (hd : data ≠ []) (hW : 1 ≤ W) :
    ∃ cs, chunked data (W : Int) = Except.ok cs ∧ cs.flatten = data :=
  ⟨slices (natCeil data.length W) data, chunked_eq_slices data W hd hW,
    slices_flatten _ (natCeil_pos (List.length_pos.mpr hd) hW) data⟩

theorem claim_C3_witness :
    ∃ cs, chunked [0, 1, 2] ((2 : Nat) : Int) = Except.ok cs ∧ cs.flatten = [0, 1, 2] :=
  claim_C3 [0, 1, 2] 2 (by decide) (by decide)

/-- C4 counterexample: with one chunk of one item there is an execution —
aggregator reads its snapshot, then the worker processes the item and its
job resolves done, then the aggregator's done-check exits the loop — in
which the loop exits with the chunk's bar showing 0 of 1 and the
aggregate bar showing 0 of 1: no further snapshot read happens after all
jobs report done, and the loop exits with the last increment unread. -/
theorem claim_C4_counterexample :
    ¬((runLoop [1] [Agent.aggregator, Agent.worker 0, Agent.worker 0, Agent.aggregator]).pc
        = AggPC.exited →
      (∀ i, i < 1 →
        (runLoop [1] [Agent.aggregator, Agent.worker 0, Agent.worker 0,
          Agent.aggregator]).display i = [1].getD i 0) ∧
      (runLoop [1] [Agent.aggregator, Agent.worker 0, Agent.worker 0,
        Agent.aggregator]).displayAll = 1) := by
  decide

/-- C4 (amended): the aggregator loop exits only after a `remaining`
recomputation that observed every job done, but the snapshot rendered in
that final iteration was read before the done-check, so the displayed
counts at exit are only bounded by the totals and may under-report (the
counterexample exhibits an execution exiting at 0 of 1). -/
theorem claim_C4 (totals : List Nat) (sched : List Agent)
    (h : (runLoop totals sched).pc = AggPC.exited) :
    allDone totals.length (runLoop totals sched) = true ∧
    ∀ i, (runLoop totals sched).display i ≤ totals.getD i 0 := by
  obtain ⟨h1, h2, h3⟩ := loopInv_run totals sched
  exact ⟨h1 h, h3⟩

theorem claim_C4_witness :
    allDone 1 (runLoop [1] [Agent.aggregator, Agent.worker 0, Agent.worker 0,
      Agent.aggregator]) = true ∧
    ∀ i, (runLoop [1] [Agent.aggregator, Agent.worker 0, Agent.worker 0,
      Agent.aggregator]).display i ≤ [1].getD i 0 :=
  claim_C4 [1] [Agent.aggregator, Agent.worker 0, Agent.worker 0, Agent.aggregator] (by decide)

/-- C5 counterexample: with a failed first job and a successful second
job, the result collection evaluates to the bare failure — it is not a
sequence with one slot per chunk, and the later job's successful result
is not retrieved. -/
theorem claim_C5_counterexample :
    collectResults [Except.error "boom", Except.ok (1 : Nat)] = Except.error "boom" ∧
    ¬∃ out : List Nat,
      collectResults [Except.error "boom", Except.ok (1 : Nat)] = Except.ok out := by
  refine ⟨rfl, ?_⟩
  rintro ⟨out, hout⟩
  rw [show collectResults [Except.error "boom", Except.ok (1 : Nat)]
      = Except.error "boom" from rfl] at hout
  exact Except.noConfusion hout

/-- C5 (amended): when a job fails, `[job.result() for job in jobs]`
re-raises that job's failure at the first failed position: the whole
collection evaluates to the first failure, the results retrieved before
it are discarded with it, and the results of jobs after it are never
retrieved — no per-slot sequence is returned. -/
theorem claim_C5 (pre : List ρ) (e : ε) (rest : List (Except ε ρ)) :
    collectResults (pre.map Except.ok ++ Except.error e :: rest) = Except.error e :=
  collectResults_first_failure pre e rest

/-- C6: on the empty input list the claimed behaviour (zero chunks, zero
jobs, immediate empty result) does not occur — `_chunked` evaluates
`math.ceil(chunk_rem / size)` with `size = 0` and raises
`ZeroDivisionError`, which propagates out of `pretty_process` before any
job is dispatched. -/
theorem claim_C6 :
    pretty_process_plan (some 4) ([] : List Nat) 3 = Except.error PyErr.zeroDivisionError ∧
    chunked ([] : List Nat) 4 = Except.error PyErr.zeroDivisionError := by
  exact ⟨by decide, by decide⟩

/-- C7 counterexample: for the negative count −1 on a nonempty list the
operation does not fail at all — `chunk_size` comes out negative, the
slice loop's range is empty, and `_chunked` silently returns no chunks. -/
theorem claim_C7_counterexample :
    chunked [(0 : Nat)] (-1) = Except.ok [] ∧
    ¬∃ e, chunked [(0 : Nat)] (-1) = Except.error e := by
  refine ⟨by decide, ?_⟩
  rintro ⟨e, he⟩
  rw [show chunked [(0 : Nat)] (-1) = Except.ok [] from by decide] at he
  exact Except.noConfusion he

/-- C7 (amended): no `InvalidConfiguration` error exists in the code.
For W = 0 chunking fails fast with `ZeroDivisionError` (before any
dispatch), as it does for an empty list; for W < 0 on a nonempty list it
does not fail: it returns zero chunks, so no job is ever dispatched. -/
theorem claim_C7 (data : List α) (W : Int) (hW : W ≤ 0) :
    (W = 0 → chunked data W = Except.error PyErr.zeroDivisionError) ∧
    (data = [] → chunked data W = Except.error PyErr.zeroDivisionError) ∧
    (W < 0 → data ≠ [] → chunked data W = Except.ok []) := by
  refine ⟨?_, ?_, ?_⟩
  · intro h0
    subst h0
    simp [chunked]
  · intro hdata
    subst hdata
    by_cases h0 : W = 0
    · subst h0
      simp [chunked]
    · simp [chunked, h0]
  · intro hneg hdata
    cases W with
    | ofNat k => exact absurd hneg (Int.not_lt.mpr (Int.natCast_nonneg k))
    | negSucc n =>
      cases data with
      | nil => exact absurd rfl hdata
      | cons x xs => exact chunked_negSucc x xs n

theorem claim_C7_witness :
    ((-1 : Int) = 0 → chunked [(5 : Nat)] (-1) = Except.error PyErr.zeroDivisionError) ∧
    ([(5 : Nat)] = [] → chunked [(5 : Nat)] (-1) = Except.error PyErr.zeroDivisionError) ∧
    ((-1 : Int) < 0 → [(5 : Nat)] ≠ [] → chunked [(5 : Nat)] (-1) = Except.ok []) :=
  claim_C7 [(5 : Nat)] (-1) (by decide)

/-- C8: for N ≥ 1 and W ≥ 1, `_chunked` produces at most W chunks, and
when W > N it produces exactly N chunks of size 1 rather than W chunks
with some empty. -/
theorem claim_C8 (data : List α) (W : Nat) (hd : data ≠ []) (hW : 1 ≤ W) :
    ∃ cs, chunked data (W : Int) = Except.ok cs ∧ cs.length ≤ W ∧
      (data.length < W → cs.length = data.length ∧ ∀ c ∈ cs, c.length = 1) := by
  have hN : 1 ≤ data.length := List.length_pos.mpr hd
  have hc := natCeil_pos hN hW
  refine ⟨slices (natCeil data.length W) data, chunked_eq_slices data W hd hW, ?_, ?_⟩
  · rw [slices_length _ hc]
    exact natCeil_le_of_le_mul _ _ _ hc (le_mul_natCeil _ _ hW)
  · intro hWN
    have h1 : natCeil data.length W = 1 := natCeil_eq_one _ _ hN hWN
    constructor
    · rw [slices_length _ hc, h1, natCeil_one_right]
    · intro c hcmem
      have hs := slices_sizes _ hc data c hcmem
      rw [h1] at hs
      omega

theorem claim_C8_witness :
    ∃ cs, chunked [0, 1, 2] ((5 : Nat) : Int) = Except.ok cs ∧ cs.length ≤ 5 ∧
      ([0, 1, 2].length < 5 → cs.length = [0, 1, 2].length ∧ ∀ c ∈ cs, c.length = 1) :=
  claim_C8 [0, 1, 2] 5 (by decide) (by decide)

/-- C9: for N = 23 and W = 4 the code produces exactly four chunks of
sizes 6, 6, 6, 5 in that order. -/
theorem claim_C9 :
    (chunked (List.range 23) 4).map (fun cs => cs.map List.length) = Except.ok [6, 6, 6, 5] := by
  decide

/-- C10: whenever the dispatch loop of `pretty_process` completes, each
chunk's `shared_progress` entry is initialised to 0 and its total is
recorded before that chunk's job is submitted (checked in program order
over the event trace), and the set of task ids registered in the shared
progress mapping coincides with the set of ids in the totals bookkeeping,
so no snapshot key is ever absent from the totals. -/
theorem claim_C10 (data : List α) (c w : Int) (p : RunPlan α)
    (h : pretty_process_plan (some c) data w = Except.ok p) :
    checkReg [] [] p.events = true ∧ progressIds p.events = totalsIds p.events := by
  simp only [pretty_process_plan] at h
  cases hc : chunked data c with
  | error e =>
    rw [hc] at h
    exact Except.noConfusion h
  | ok cs =>
    rw [hc] at h
    injection h with h
    subst h
    exact ⟨checkReg_dispatchEvents cs 0 [] [], progressIds_eq_totalsIds cs 0⟩

theorem claim_C10_witness :
    checkReg [] []
      [DEvent.addTask 1, DEvent.initProgress 1, DEvent.setTotal 1 2, DEvent.submit 1,
        DEvent.addTask 2, DEvent.initProgress 2, DEvent.setTotal 2 1, DEvent.submit 2] = true ∧
    progressIds
      [DEvent.addTask 1, DEvent.initProgress 1, DEvent.setTotal 1 2, DEvent.submit 1,
        DEvent.addTask 2, DEvent.initProgress 2, DEvent.setTotal 2 1, DEvent.submit 2]
      = totalsIds
        [DEvent.addTask 1, DEvent.initProgress 1, DEvent.setTotal 1 2, DEvent.submit 1,
          DEvent.addTask 2, DEvent.initProgress 2, DEvent.setTotal 2 1, DEvent.submit 2] :=
  claim_C10 [10, 20, 30] 2 7
    { poolSize := 7, chunks := [[10, 20], [30]],
      events := [DEvent.addTask 1, DEvent.initProgress 1, DEvent.setTotal 1 2, DEvent.submit 1,
        DEvent.addTask 2, DEvent.initProgress 2, DEvent.setTotal 2 1, DEvent.submit 2] }
    (by decide)
